import Mathlib

/-!
Verification development for the np_assignment3 chat relay
(src/server.c, src/client.c): a shallow embedding of the server's
per-connection protocol state machine, line framer, broadcast fan-out and
readiness-loop removal pass, and of the client's startup path, together
with theorems settling the specification's claims about them.

Byte strings are modelled as `List Char` (the sources manipulate
`std::string` as a byte sequence).  A `send` that can fail is modelled
with an explicit oracle: the list of descriptors on which `send` returns
a negative count.
-/

set_option maxRecDepth 8000

namespace NpChat

/-- `Client` from src/server.c lines 19-28: stream descriptor, nickname,
inbound accumulator, registration flag.  `fd = -1` is the closed marker. -/
structure Client where
  fd : Int
  nick : List Char
  inbuf : List Char
  registered : Bool
deriving DecidableEq, Repr

/-- The C++ default constructor `Client(int f = -1)`. -/
instance : Inhabited Client := ⟨⟨-1, [], [], false⟩⟩

/-- Creation on accept (src/server.c line 197, `clients.emplace_back(cfd)`):
unregistered, empty nickname and accumulator. -/
def newClient (f : Int) : Client := ⟨f, [], [], false⟩

/-- Marking a connection closed in the readiness pass
(src/server.c lines 212-213 / 218-219): `close(fd); fd = -1`. -/
def markClosed (c : Client) : Client := { c with fd := -1 }

/-- The Connection invariant of the spec (§3): a connection is registered
exactly when its nickname is set to a non-empty string. -/
def ClientInv (c : Client) : Prop := c.registered = true ↔ c.nick ≠ []

/-- The character test of `chomp` (src/server.c line 43). -/
def isNlCr (c : Char) : Bool := c = '\n' || c = '\r'

/-- `chomp` from src/server.c lines 42-44: pop trailing `'\n'`/`'\r'`
characters off the back of the string. -/
def chomp (l : List Char) : List Char := (l.reverse.dropWhile isNlCr).reverse

/-- The bracket expression `[A-Za-z0-9_]` of the nickname regex. -/
def nickCharClass (c : Char) : Bool :=
  (decide ('A' ≤ c) && decide (c ≤ 'Z')) ||
  (decide ('a' ≤ c) && decide (c ≤ 'z')) ||
  (decide ('0' ≤ c) && decide (c ≤ '9')) ||
  c = '_'

/-- `is_valid_nick` from src/server.c lines 46-49:
`regex_match(s, "^[A-Za-z0-9_]{1,12}$")`, i.e. the whole string is 1 to 12
characters drawn from the bracket class. -/
def is_valid_nick (s : List Char) : Bool :=
  decide (1 ≤ s.length) && decide (s.length ≤ 12) && s.all nickCharClass

/-- `NetworkClient::isNicknameValid` from src/client.c lines 55-62: an
explicit length-over-12 rejection, then the same regex match. -/
def isNicknameValid (s : List Char) : Bool :=
  if s.length > 12 then false
  else decide (1 ≤ s.length) && decide (s.length ≤ 12) && s.all nickCharClass

/-- Modelled from the spec (§8): "accepts exactly strings matching
`^[A-Za-z0-9_]{1,12}$`" — length 1 to 12, every character an ASCII letter,
digit or underscore.  Stated independently of the code's validators so that
they can be compared against it. -/
def specNickPattern (s : List Char) : Prop :=
  1 ≤ s.length ∧ s.length ≤ 12 ∧
    ∀ c ∈ s, ('A' ≤ c ∧ c ≤ 'Z') ∨ ('a' ≤ c ∧ c ≤ 'z') ∨
             ('0' ≤ c ∧ c ≤ '9') ∨ c = '_'

/-- `send_response` from src/server.c lines 97-103, with the set of
descriptors on which `send` fails made explicit (`fail`).  On success the
message is delivered to `fd`; on failure nothing is delivered and the
descriptor is closed (`close(clientFd)`).  Returns (deliveries, closes).
Note it receives only the integer descriptor: it cannot touch the
`clients` vector. -/
def send_response (fail : List Int) (fd : Int) (msg : List Char) :
    List (Int × List Char) × List Int :=
  if fail.contains fd then ([], [fd]) else ([(fd, msg)], [])

/-- The broadcast loop of src/server.c lines 134-138: for every `dst` in
the vector with `dst.fd >= 0 && dst.fd != client.fd`, `send_response` the
message.  Accumulates deliveries and closes in vector order. -/
def broadcast (fail : List Int) (clients : List Client) (senderFd : Int)
    (msg : List Char) : List (Int × List Char) × List Int :=
  match clients with
  | [] => ([], [])
  | dst :: rest =>
    let tail := broadcast fail rest senderFd msg
    if 0 ≤ dst.fd ∧ dst.fd ≠ senderFd then
      let r := send_response fail dst.fd msg
      (r.1 ++ tail.1, r.2 ++ tail.2)
    else tail

/-- The body of `process_client_data`'s while loop for one framed line
(src/server.c lines 110-143): chomp the line, then dispatch on the
connection's registration state and the line's command prefix.  `c` is
the client the line arrived on (`clients[i]` in the source); `clients` is
the vector the broadcast loop iterates.  Returns the updated client, the
deliveries and the descriptors closed by failed sends. -/
def handle_line (fail : List Int) (c : Client) (clients : List Client)
    (rawLine : List Char) : Client × List (Int × List Char) × List Int :=
  let line := chomp rawLine
  if c.registered = false then
    if (("NICK ").data).isPrefixOf line then
      let nick := line.drop 5
      if is_valid_nick nick then
        let r := send_response fail c.fd (("OK\n").data)
        ({ c with nick := nick, registered := true }, r.1, r.2)
      else
        let r := send_response fail c.fd (("ERROR: Invalid nickname format\n").data)
        (c, r.1, r.2)
    else
      let r := send_response fail c.fd (("ERROR: NICK command expected\n").data)
      (c, r.1, r.2)
  else
    if (("MSG ").data).isPrefixOf line then
      let message := chomp (line.drop 4)
      if message.length > 255 then
        let r := send_response fail c.fd (("ERROR: Message too long\n").data)
        (c, r.1, r.2)
      else
        let full := ("MSG ").data ++ c.nick ++ (" ").data ++ message ++ ("\n").data
        let r := broadcast fail clients c.fd full
        (c, r.1, r.2)
    else
      let r := send_response fail c.fd (("ERROR: Unsupported command\n").data)
      (c, r.1, r.2)

/-- The search `inbuf.find('\n')` plus `substr`/`erase` of
src/server.c lines 107-109, as one step: `some (line, rest)` when the
buffer contains a newline — `line` is everything before the first `'\n'`
and `rest` everything after it — and `none` otherwise. -/
def breakAtNl : List Char → Option (List Char × List Char)
  | [] => none
  | c :: rest =>
    if c = '\n' then some ([], rest)
    else (breakAtNl rest).map (fun p => (c :: p.1, p.2))

/-- The while loop of src/server.c lines 107-109 seen purely as a framer:
repeatedly split off complete lines; what is left is the retained partial
line.  The loop runs at most `length` times because every iteration
consumes at least the newline character, so `fuel` bounds it. -/
def frameLinesAux : Nat → List Char → List (List Char) × List Char
  | 0, s => ([], s)
  | fuel + 1, s =>
    match breakAtNl s with
    | none => ([], s)
    | some (line, rest) =>
      let p := frameLinesAux fuel rest
      (line :: p.1, p.2)

/-- The Line Framer: all complete `'\n'`-delimited lines of the buffer, in
order, and the trailing partial line. -/
def frameLines (s : List Char) : List (List Char) × List Char :=
  frameLinesAux s.length s

/-- One delivery of newly received bytes to the Line Framer
(src/server.c lines 90-95 and 105-110): append the chunk to the
accumulator, extract every complete line, keep the rest. -/
def feedChunk (st : List (List Char) × List Char) (chunk : List Char) :
    List (List Char) × List Char :=
  let r := frameLines (st.2 ++ chunk)
  (st.1 ++ r.1, r.2)

/-- The loop of `process_client_data` (src/server.c lines 105-145): while
the accumulator holds a complete line, remove it from the accumulator and
handle it.  Handling a line never touches the accumulator, so the line
count — hence `fuel := inbuf.length` — bounds the iterations. -/
def pcdAux (fail : List Int) : Nat → Client → List Client →
    Client × List (Int × List Char) × List Int
  | 0, c, _ => (c, [], [])
  | fuel + 1, c, clients =>
    match breakAtNl c.inbuf with
    | none => (c, [], [])
    | some (line, rest) =>
      let step := handle_line fail { c with inbuf := rest } clients line
      let r := pcdAux fail fuel step.1 clients
      (r.1, step.2.1 ++ r.2.1, step.2.2 ++ r.2.2)

/-- `process_client_data` from src/server.c lines 105-145.  `c` is the
connection the bytes arrived on and `clients` the vector used by the
broadcast loop. -/
def process_client_data (fail : List Int) (c : Client) (clients : List Client) :
    Client × List (Int × List Char) × List Int :=
  pcdAux fail c.inbuf.length c clients

/-- What `recv` reported for one connection in a readiness pass
(src/server.c lines 208-224): not ready, end of stream, an error, or a
chunk of bytes. -/
inductive ReadOutcome where
  | notReady
  | eof
  | err
  | data (bytes : List Char)
deriving DecidableEq

/-- The outcomes that make the loop mark a connection for removal
(`n == 0` and `n < 0`, src/server.c lines 210-221). -/
def deadOutcome : ReadOutcome → Bool
  | .eof => true
  | .err => true
  | _ => false

/-- The client-iteration loop of src/server.c lines 204-225, from index
`i` with `fuel` iterations left: skip closed or non-ready connections;
on EOF or error close the descriptor and record the index in `to_remove`;
on data append the bytes (`recv_into`, lines 90-95) and run
`process_client_data`.  Returns the vector after the pass, `to_remove`,
the deliveries and the descriptors closed by failed sends. -/
def passAux (fail : List Int) (outcomes : Nat → ReadOutcome) :
    Nat → Nat → List Client →
    List Client × List Nat × List (Int × List Char) × List Int
  | 0, _, cs => (cs, [], [], [])
  | fuel + 1, i, cs =>
    if i < cs.length then
      let c := cs.getD i default
      if c.fd < 0 then passAux fail outcomes fuel (i + 1) cs
      else
        match outcomes i with
        | .notReady => passAux fail outcomes fuel (i + 1) cs
        | .eof =>
          let r := passAux fail outcomes fuel (i + 1) (cs.set i (markClosed c))
          (r.1, i :: r.2.1, r.2.2)
        | .err =>
          let r := passAux fail outcomes fuel (i + 1) (cs.set i (markClosed c))
          (r.1, i :: r.2.1, r.2.2)
        | .data b =>
          let c₁ := { c with inbuf := c.inbuf ++ b }
          let pr := process_client_data fail c₁ (cs.set i c₁)
          let r := passAux fail outcomes fuel (i + 1) (cs.set i pr.1)
          (r.1, r.2.1, pr.2.1 ++ r.2.2.1, pr.2.2 ++ r.2.2.2)
    else (cs, [], [], [])

/-- One full readiness pass over the connection vector
(src/server.c lines 204-225). -/
def readiness_pass (fail : List Int) (outcomes : Nat → ReadOutcome)
    (clients : List Client) :
    List Client × List Nat × List (Int × List Char) × List Int :=
  passAux fail outcomes clients.length 0 clients

/-- One insertion step of sorting into descending order. -/
def insertDesc (x : Nat) : List Nat → List Nat
  | [] => [x]
  | y :: ys => if y ≤ x then x :: y :: ys else y :: insertDesc x ys

/-- `std::sort(to_remove.begin(), to_remove.end(), std::greater<int>())`
(src/server.c line 229): the indices in descending order. -/
def sortDescNat (l : List Nat) : List Nat := l.foldr insertDesc []

/-- The cleanup step of src/server.c lines 228-235: sort the marked
indices descending, then erase each (guarded by the bounds check of
line 231).  Erasing from the highest index first keeps the lower marked
indices valid. -/
def cleanup (clients : List Client) (to_remove : List Nat) : List Client :=
  (sortDescNat to_remove).foldl
    (fun cs idx => if idx < cs.length then cs.eraseIdx idx else cs) clients

/-- Specification-side description of the cleanup: keep exactly the
entries whose position is not in `idxs`, in order (`n` is the position of
the first element).  C8 compares the code's erase loop against this. -/
def keepNotIn (idxs : List Nat) : Nat → List Client → List Client
  | _, [] => []
  | n, x :: xs =>
    if n ∈ idxs then keepNotIn idxs (n + 1) xs
    else x :: keepNotIn idxs (n + 1) xs

/-- `NetworkClient::splitHostPort` from src/client.c lines 64-77: split at
the first `':'`; both parts must be non-empty. -/
def splitHostPort (address : List Char) : Option (List Char × List Char) :=
  if address.contains ':' then
    let host := address.takeWhile (fun c => c ≠ ':')
    let port := (address.dropWhile (fun c => c ≠ ':')).drop 1
    if host = [] ∨ port = [] then none else some (host, port)
  else none

/-- The externally visible actions of the chat client's startup path. -/
inductive CAct where
  | connectAttempt
  | sendLine (s : List Char)
deriving DecidableEq

/-- `NetworkClient::startCommunication` from src/client.c lines 192-236:
unconditionally attempt the connection; on success wait for the greeting;
once the greeting is seen, send `NICK <nickname>\n` (`sendNicknameToServer`,
lines 104-110).  The environment is abstracted by whether the connect
succeeds and whether a `HELLO` greeting arrives in time.  Note the
nickname is used as given: `isNicknameValid` is never consulted. -/
def startCommunication (nickname : List Char) (connectOk greetingOk : Bool) :
    List CAct :=
  CAct.connectAttempt ::
    (if connectOk = false then []
     else if greetingOk = false then []
     else [CAct.sendLine (("NICK ").data ++ nickname ++ ['\n'])])

/-- `main` from src/client.c lines 238-256: construct the client (which
only parses `host:port`; the constructor throws on a malformed address,
before any connection) and run `startCommunication`. -/
def clientMain (address nickname : List Char) (connectOk greetingOk : Bool) :
    List CAct :=
  match splitHostPort address with
  | none => []
  | some _ => startCommunication nickname connectOk greetingOk

/-! ## Helper lemmas -/

theorem dropWhile_eq_self_of_false {p : Char → Bool} {l : List Char}
    (h : ∀ x ∈ l, p x = false) : l.dropWhile p = l := by
  rw [List.dropWhile_eq_self_iff]
  intro hl
  rw [h _ (List.get_mem _ _ _)]
  simp

theorem chomp_eq_self_of_clean {l : List Char}
    (h : ∀ x ∈ l, isNlCr x = false) : chomp l = l := by
  unfold chomp
  rw [dropWhile_eq_self_of_false fun x hx => h x (List.mem_reverse.mp hx),
    List.reverse_reverse]

theorem nickchar_clean {x : Char} (h : nickCharClass x = true) :
    isNlCr x = false := by
  have hx : ¬(x = '\n' ∨ x = '\r') := by
    rintro (rfl | rfl) <;> exact absurd h (by decide)
  simp only [isNlCr, Bool.or_eq_false_iff, decide_eq_false_iff_not]
  exact ⟨fun h' => hx (Or.inl h'), fun h' => hx (Or.inr h')⟩

theorem valid_nick_clean {s : List Char} (h : is_valid_nick s = true) :
    ∀ x ∈ s, isNlCr x = false := by
  intro x hx
  simp only [is_valid_nick, Bool.and_eq_true] at h
  exact nickchar_clean (List.all_eq_true.mp h.2 x hx)

theorem chomp_msg_line {text : List Char} (h : ∀ x ∈ text, isNlCr x = false) :
    chomp (("MSG ").data ++ text) = ("MSG ").data ++ text := by
  refine chomp_eq_self_of_clean fun x hx => ?_
  rcases List.mem_append.mp hx with hx | hx
  · exact (by decide : ∀ x ∈ ("MSG ").data, isNlCr x = false) x hx
  · exact h x hx

theorem chomp_nick_line {name : List Char} (h : ∀ x ∈ name, isNlCr x = false) :
    chomp (("NICK ").data ++ name) = ("NICK ").data ++ name := by
  refine chomp_eq_self_of_clean fun x hx => ?_
  rcases List.mem_append.mp hx with hx | hx
  · exact (by decide : ∀ x ∈ ("NICK ").data, isNlCr x = false) x hx
  · exact h x hx

theorem msg_isPrefixOf (t : List Char) :
    (("MSG ").data).isPrefixOf (("MSG ").data ++ t) = true :=
  List.isPrefixOf_iff_prefix.mpr (List.prefix_append _ _)

theorem nick_isPrefixOf (t : List Char) :
    (("NICK ").data).isPrefixOf (("NICK ").data ++ t) = true :=
  List.isPrefixOf_iff_prefix.mpr (List.prefix_append _ _)

/-- With no send failure, the broadcast loop delivers the message to
exactly the vector entries with a live descriptor other than the
sender's, in vector order, and closes nothing. -/
theorem broadcast_no_fail (clients : List Client) (sfd : Int) (msg : List Char) :
    broadcast [] clients sfd msg =
      ((clients.filter fun dst => decide (0 ≤ dst.fd ∧ dst.fd ≠ sfd)).map
        fun dst => (dst.fd, msg), []) := by
  induction clients with
  | nil => rfl
  | cons dst rest ih =>
    by_cases h : 0 ≤ dst.fd ∧ dst.fd ≠ sfd
    · simp [broadcast, h, send_response, ih]
    · simp [broadcast, h, ih]

/-- Evaluation of `handle_line` on a registered connection and an
oversized `MSG` line: only the error reply to the sender. -/
theorem handle_line_msg_long (fail : List Int) (clients : List Client)
    (c : Client) (text : List Char) (hreg : c.registered = true)
    (hclean : ∀ x ∈ text, isNlCr x = false) (hlen : 255 < text.length) :
    handle_line fail c clients (("MSG ").data ++ text) =
      (c, (send_response fail c.fd (("ERROR: Message too long\n").data)).1,
          (send_response fail c.fd (("ERROR: Message too long\n").data)).2) := by
  have hdrop : List.drop 4 (("MSG ").data ++ text) = text := by simp
  simp only [handle_line]
  rw [chomp_msg_line hclean, hreg, hdrop, if_neg (by simp),
    if_pos (msg_isPrefixOf text), chomp_eq_self_of_clean hclean,
    if_pos (by omega : text.length > 255)]

/-- Evaluation of `handle_line` on a registered connection and a `MSG`
line within the length limit: the broadcast, no reply to the sender, and
the sender's record unchanged. -/
theorem handle_line_msg_ok (fail : List Int) (clients : List Client)
    (c : Client) (text : List Char) (hreg : c.registered = true)
    (hclean : ∀ x ∈ text, isNlCr x = false) (hlen : text.length ≤ 255) :
    handle_line fail c clients (("MSG ").data ++ text) =
      (c, (broadcast fail clients c.fd
            (("MSG ").data ++ c.nick ++ (" ").data ++ text ++ ("\n").data)).1,
          (broadcast fail clients c.fd
            (("MSG ").data ++ c.nick ++ (" ").data ++ text ++ ("\n").data)).2) := by
  have hdrop : List.drop 4 (("MSG ").data ++ text) = text := by simp
  simp only [handle_line]
  rw [chomp_msg_line hclean, hreg, hdrop, if_neg (by simp),
    if_pos (msg_isPrefixOf text), chomp_eq_self_of_clean hclean,
    if_neg (by omega : ¬(text.length > 255))]

theorem valid_nick_ne_nil {s : List Char} (h : is_valid_nick s = true) :
    s ≠ [] := by
  intro hs
  rw [hs] at h
  exact absurd h (by decide)

/-- Evaluation of `handle_line` on an unregistered connection and a valid
`NICK <name>` line: nickname set, registration flag raised, `OK` reply. -/
theorem handle_line_nick_ok (fail : List Int) (clients : List Client)
    (c : Client) (name : List Char) (hr : c.registered = false)
    (hv : is_valid_nick name = true) :
    handle_line fail c clients (("NICK ").data ++ name) =
      ({ c with nick := name, registered := true },
       (send_response fail c.fd (("OK\n").data)).1,
       (send_response fail c.fd (("OK\n").data)).2) := by
  have hdrop : List.drop 5 (("NICK ").data ++ name) = name := by simp
  simp only [handle_line]
  rw [chomp_nick_line (valid_nick_clean hv), hr, if_pos rfl,
    if_pos (nick_isPrefixOf name), hdrop, if_pos hv]

/-- On a registered connection `handle_line` never changes the client
record. -/
theorem handle_line_fst_of_registered (fail : List Int) (clients : List Client)
    (c : Client) (rawLine : List Char) (hr : c.registered = true) :
    (handle_line fail c clients rawLine).1 = c := by
  simp only [handle_line]
  rw [hr, if_neg (by simp)]
  split_ifs <;> rfl

/-! ## Claims -/

/-- C4: the nickname validator accepts a string iff it matches
`^[A-Za-z0-9_]{1,12}$` — length 1 to 12 and every character an ASCII
letter, digit or underscore; every other string (empty, over 12
characters, or containing any other character) is rejected.  The client's
validator decides exactly like the server's. -/
theorem c4_nick_validator (s : List Char) :
    (is_valid_nick s = true ↔ specNickPattern s) ∧
    isNicknameValid s = is_valid_nick s := by
  constructor
  · simp only [is_valid_nick, specNickPattern, nickCharClass, Bool.and_eq_true,
      Bool.or_eq_true, decide_eq_true_eq, List.all_eq_true, and_assoc, or_assoc]
  · unfold isNicknameValid is_valid_nick
    by_cases h : s.length > 12
    · rw [if_pos h]
      have : decide (s.length ≤ 12) = false := by
        rw [decide_eq_false_iff_not]; omega
      rw [this]
      simp
    · rw [if_neg h]

/-- C5: a registered connection sending `MSG <text>` with `<text>` longer
than 255 bytes gets exactly the reply `ERROR: Message too long\n`, nothing
is delivered to any other connection, and the sender's record (nickname,
registration) is unchanged. -/
theorem c5_oversized_message (clients : List Client) (c : Client)
    (text : List Char) (hreg : c.registered = true)
    (hclean : ∀ x ∈ text, isNlCr x = false) (hlen : 255 < text.length) :
    handle_line [] c clients (("MSG ").data ++ text) =
      (c, [(c.fd, ("ERROR: Message too long\n").data)], []) := by
  rw [handle_line_msg_long [] clients c text hreg hclean hlen]
  rfl

theorem c5_oversized_message_witness :
    255 < (List.replicate 256 'a').length ∧
    handle_line [] (⟨7, ("bob").data, [], true⟩ : Client) []
        (("MSG ").data ++ List.replicate 256 'a') =
      ((⟨7, ("bob").data, [], true⟩ : Client),
       [(7, ("ERROR: Message too long\n").data)], []) :=
  ⟨by decide,
   c5_oversized_message [] ⟨7, ("bob").data, [], true⟩ (List.replicate 256 'a')
     (by decide) (by decide) (by decide)⟩

/-- C10: a registered connection sending `MSG ` with empty text is not
rejected: the line `MSG <nick> \n` (nickname, a space, empty text) is
broadcast to the other live connections and the sender gets no reply at
all. -/
theorem c10_empty_message (clients : List Client) (c : Client)
    (hreg : c.registered = true) :
    handle_line [] c clients (("MSG ").data) =
      (c, (clients.filter fun dst => decide (0 ≤ dst.fd ∧ dst.fd ≠ c.fd)).map
            (fun dst => (dst.fd, ("MSG ").data ++ c.nick ++ (" ").data ++ ("\n").data)),
          []) ∧
    ∀ p ∈ (handle_line [] c clients (("MSG ").data)).2.1, p.1 ≠ c.fd := by
  have h := handle_line_msg_ok [] clients c [] hreg (by simp) (by simp)
  rw [broadcast_no_fail] at h
  have hmain : handle_line [] c clients (("MSG ").data) =
      (c, (clients.filter fun dst => decide (0 ≤ dst.fd ∧ dst.fd ≠ c.fd)).map
            (fun dst => (dst.fd, ("MSG ").data ++ c.nick ++ (" ").data ++ ("\n").data)),
          []) :=
    calc handle_line [] c clients (("MSG ").data)
        = handle_line [] c clients (("MSG ").data ++ ([] : List Char)) := by
          rw [List.append_nil]
      _ = _ := h.trans (by simp)
  refine ⟨hmain, ?_⟩
  rw [hmain]
  intro p hp
  simp only [List.mem_map, List.mem_filter, decide_eq_true_eq] at hp
  obtain ⟨dst, ⟨_, hq⟩, rfl⟩ := hp
  exact hq.2

theorem c10_empty_message_witness :
    handle_line [] (⟨3, ("ann").data, [], true⟩ : Client)
        [⟨3, ("ann").data, [], true⟩, ⟨4, ("bo").data, [], true⟩] (("MSG ").data) =
      ((⟨3, ("ann").data, [], true⟩ : Client),
       [(4, ("MSG ann \n").data)], []) :=
  ((c10_empty_message [⟨3, ("ann").data, [], true⟩, ⟨4, ("bo").data, [], true⟩]
      ⟨3, ("ann").data, [], true⟩ (by decide)).1).trans (by decide)

/-- C1 (counterexample to the claim as stated): with one registered
sender and one unregistered connection, the sender's `MSG hello` is
delivered to the unregistered connection — the claim that unregistered
connections receive nothing is false for this code. -/
theorem c1_counterexample_unregistered_receives :
    ((⟨1, [], [], false⟩ : Client).registered = false) ∧
    (1, ("MSG alice hello\n").data) ∈
      (handle_line [] (⟨0, ("alice").data, [], true⟩ : Client)
        [⟨0, ("alice").data, [], true⟩, ⟨1, [], [], false⟩]
        (("MSG hello").data)).2.1 := by decide

/-- C1 (amended): with all stream handles live and the sender's handle
held by exactly one entry, a registered sender's `MSG <text>` (at most
255 bytes) is delivered as `MSG <nick> <text>\n` to exactly the N−1 other
connections — registered or unregistered alike — and the sender receives
nothing. -/
theorem c1_broadcast_fanout (clients : List Client) (c : Client)
    (text : List Char) (hreg : c.registered = true)
    (hclean : ∀ x ∈ text, isNlCr x = false) (hlen : text.length ≤ 255)
    (hlive : ∀ dst ∈ clients, 0 ≤ dst.fd)
    (hone : clients.countP (fun dst => decide (dst.fd = c.fd)) = 1) :
    handle_line [] c clients (("MSG ").data ++ text) =
      (c, (clients.filter fun dst => decide (0 ≤ dst.fd ∧ dst.fd ≠ c.fd)).map
            (fun dst =>
              (dst.fd, ("MSG ").data ++ c.nick ++ (" ").data ++ text ++ ("\n").data)),
          []) ∧
    (∀ p ∈ (handle_line [] c clients (("MSG ").data ++ text)).2.1, p.1 ≠ c.fd) ∧
    (handle_line [] c clients (("MSG ").data ++ text)).2.1.length =
      clients.length - 1 := by
  have h := handle_line_msg_ok [] clients c text hreg hclean hlen
  rw [broadcast_no_fail] at h
  refine ⟨h, ?_, ?_⟩
  · rw [h]
    intro p hp
    simp only [List.mem_map, List.mem_filter, decide_eq_true_eq] at hp
    obtain ⟨dst, ⟨_, hq⟩, rfl⟩ := hp
    exact hq.2
  · rw [h]
    simp only [List.length_map]
    rw [← List.countP_eq_length_filter]
    have hcong : clients.countP (fun dst => decide (0 ≤ dst.fd ∧ dst.fd ≠ c.fd)) =
        clients.countP (fun dst => decide ¬(decide (dst.fd = c.fd)) = true) := by
      refine List.countP_congr fun dst hdst => ?_
      simp only [decide_eq_true_eq, decide_not, Bool.not_eq_true',
        decide_eq_false_iff_not]
      exact ⟨fun hx => hx.2, fun hx => ⟨hlive dst hdst, hx⟩⟩
    have htot := List.length_eq_countP_add_countP
      (fun dst => decide (dst.fd = c.fd)) clients
    rw [hcong]
    omega

theorem c1_broadcast_fanout_witness :
    (("hi").data).length ≤ 255 ∧
    (handle_line [] (⟨0, ("alice").data, [], true⟩ : Client)
        [⟨0, ("alice").data, [], true⟩, ⟨1, [], [], false⟩, ⟨2, ("bob").data, [], true⟩]
        (("MSG ").data ++ ("hi").data)).2.1.length = 2 :=
  ⟨by decide,
   (c1_broadcast_fanout
      [⟨0, ("alice").data, [], true⟩, ⟨1, [], [], false⟩, ⟨2, ("bob").data, [], true⟩]
      ⟨0, ("alice").data, [], true⟩ (("hi").data)
      (by decide) (by decide) (by decide) (by decide) (by decide)).2.2.trans
    (by decide)⟩

/-- C2 (code evaluation): the claim says a pattern-invalid nickname is
rejected before any connection is attempted, but the code never calls the
validator — for the invalid nickname `bad@nick` the client still attempts
the connection and still sends the `NICK` line. -/
theorem c2_client_never_validates :
    isNicknameValid (("bad@nick").data) = false ∧
    CAct.connectAttempt ∈
      clientMain (("localhost:4711").data) (("bad@nick").data) true true ∧
    CAct.sendLine (("NICK bad@nick\n").data) ∈
      clientMain (("localhost:4711").data) (("bad@nick").data) true true := by
  decide

/-- C3 (code evaluation): three registered clients alice(3), bob(4),
carl(5); alice's `MSG hi` is broadcast and the send to bob fails.  The
failure is invisible to alice (her record is unchanged, she gets no
reply) and carl is still served, but bob is neither marked for removal
nor removed: his entry stays in the connection vector with the
already-closed descriptor 4. -/
theorem c3_failed_recipient_not_removed :
    readiness_pass [4]
        (fun i => if i = 0 then ReadOutcome.data (("MSG hi\n").data)
                  else ReadOutcome.notReady)
        [⟨3, ("alice").data, [], true⟩, ⟨4, ("bob").data, [], true⟩,
         ⟨5, ("carl").data, [], true⟩] =
      ([⟨3, ("alice").data, [], true⟩, ⟨4, ("bob").data, [], true⟩,
        ⟨5, ("carl").data, [], true⟩],
       [], [(5, ("MSG alice hi\n").data)], [4]) := by
  decide

/-- C6: an unregistered connection that sends any framed line other than
a valid `NICK <name>` stays unregistered with an empty nickname and gets
exactly one `ERROR:` reply — `Invalid nickname format` when the line is a
`NICK ` line with a bad name, `NICK command expected` otherwise — and a
valid `NICK <name>` processed afterwards still sets the nickname, replies
`OK` and registers the connection. -/
theorem c6_unregistered_rejection (clients : List Client) (c : Client)
    (rawLine : List Char) (hunreg : c.registered = false) (hnick : c.nick = [])
    (hbad : ¬((("NICK ").data).isPrefixOf (chomp rawLine) = true ∧
              is_valid_nick ((chomp rawLine).drop 5) = true)) :
    (handle_line [] c clients rawLine).1 = c ∧
    (handle_line [] c clients rawLine).2.1 =
      [(c.fd, if (("NICK ").data).isPrefixOf (chomp rawLine) then
                ("ERROR: Invalid nickname format\n").data
              else ("ERROR: NICK command expected\n").data)] ∧
    (∀ name, is_valid_nick name = true →
      handle_line [] (handle_line [] c clients rawLine).1 clients
          (("NICK ").data ++ name) =
        ({ c with nick := name, registered := true },
         [(c.fd, ("OK\n").data)], [])) := by
  have h1 : handle_line [] c clients rawLine =
      (c, [(c.fd, if (("NICK ").data).isPrefixOf (chomp rawLine) then
                    ("ERROR: Invalid nickname format\n").data
                  else ("ERROR: NICK command expected\n").data)], []) := by
    by_cases hpre : (("NICK ").data).isPrefixOf (chomp rawLine) = true
    · have hv : is_valid_nick ((chomp rawLine).drop 5) = false := by
        cases hvv : is_valid_nick ((chomp rawLine).drop 5)
        · rfl
        · exact absurd ⟨hpre, hvv⟩ hbad
      simp only [handle_line]
      rw [hunreg, if_pos rfl, if_pos hpre, hv]
      simp [send_response, hpre]
    · simp only [handle_line]
      rw [hunreg, if_pos rfl, if_neg hpre]
      simp only [Bool.not_eq_true] at hpre
      simp [send_response, hpre]
  refine ⟨by rw [h1], by rw [h1], fun name hvn => ?_⟩
  rw [h1]
  exact (handle_line_nick_ok [] clients c name hunreg hvn).trans (by rfl)

theorem c6_unregistered_rejection_witness :
    handle_line []
        (handle_line [] (⟨6, [], [], false⟩ : Client) [] (("hello").data)).1 []
        (("NICK ").data ++ ("bob").data) =
      ({ (⟨6, [], [], false⟩ : Client) with
          nick := ("bob").data, registered := true },
       [(6, ("OK\n").data)], []) :=
  (c6_unregistered_rejection [] ⟨6, [], [], false⟩ (("hello").data)
    (by decide) (by decide) (by decide)).2.2 (("bob").data) (by decide)

/-- C9: the Connection invariant `registered ⇔ nickname non-empty` holds
for a freshly accepted connection, is preserved by marking a connection
closed and by processing any framed line, and once a connection is
registered no later line changes its nickname or registration flag. -/
theorem c9_registration_invariant (fail : List Int) (clients : List Client)
    (c : Client) (rawLine : List Char) (f : Int) (hinv : ClientInv c) :
    ClientInv (newClient f) ∧ ClientInv (markClosed c) ∧
    ClientInv (handle_line fail c clients rawLine).1 ∧
    (c.registered = true →
      (handle_line fail c clients rawLine).1.nick = c.nick ∧
      (handle_line fail c clients rawLine).1.registered = true) := by
  refine ⟨by simp [ClientInv, newClient], hinv, ?_, fun hr => ?_⟩
  · by_cases hr : c.registered = true
    · rw [handle_line_fst_of_registered fail clients c rawLine hr]
      exact hinv
    · simp only [Bool.not_eq_true] at hr
      simp only [handle_line]
      rw [hr, if_pos rfl]
      split_ifs with h1 h2
      · simp only [ClientInv]
        constructor
        · intro _
          exact valid_nick_ne_nil h2
        · intro _
          trivial
      · exact hinv
      · exact hinv
  · rw [handle_line_fst_of_registered fail clients c rawLine hr]
    exact ⟨rfl, hr⟩

theorem c9_registration_invariant_witness :
    ClientInv (newClient 9) ∧
    ClientInv (handle_line [] (newClient 9) [] (("NICK zoe").data)).1 :=
  ⟨(c9_registration_invariant [] [] (newClient 9) (("NICK zoe").data) 9
      (by simp [ClientInv, newClient])).1,
   (c9_registration_invariant [] [] (newClient 9) (("NICK zoe").data) 9
      (by simp [ClientInv, newClient])).2.2.1⟩

/-! ## The Line Framer: chunk-boundary independence (C7) -/

theorem breakAtNl_some_eq :
    ∀ {s l r : List Char}, breakAtNl s = some (l, r) → s = l ++ '\n' :: r := by
  intro s
  induction s with
  | nil => intro l r h; simp [breakAtNl] at h
  | cons c rest ih =>
    intro l r h
    by_cases hc : c = '\n'
    · subst hc
      simp only [breakAtNl, if_pos rfl] at h
      cases h
      rfl
    · simp only [breakAtNl, if_neg hc] at h
      cases hb : breakAtNl rest with
      | none => rw [hb] at h; simp at h
      | some p =>
        obtain ⟨l', r'⟩ := p
        rw [hb] at h
        have h' : some ((c :: l', r')) = some (l, r) := h
        obtain ⟨rfl, rfl⟩ := Prod.mk.inj (Option.some.inj h')
        rw [List.cons_append, ← ih hb]

theorem breakAtNl_append_some {a : List Char} :
    ∀ {l r : List Char}, breakAtNl a = some (l, r) →
      ∀ b, breakAtNl (a ++ b) = some (l, r ++ b) := by
  induction a with
  | nil => intro l r h; simp [breakAtNl] at h
  | cons c rest ih =>
    intro l r h b
    by_cases hc : c = '\n'
    · subst hc
      simp only [breakAtNl, if_pos rfl] at h
      cases h
      simp [breakAtNl]
    · simp only [breakAtNl, if_neg hc] at h
      cases hb : breakAtNl rest with
      | none => rw [hb] at h; simp at h
      | some p =>
        obtain ⟨l', r'⟩ := p
        rw [hb] at h
        have h' : some ((c :: l', r')) = some (l, r) := h
        obtain ⟨rfl, rfl⟩ := Prod.mk.inj (Option.some.inj h')
        show breakAtNl (c :: (rest ++ b)) = _
        simp only [breakAtNl, if_neg hc, ih hb b, Option.map]

theorem frameLinesAux_congr :
    ∀ (f₁ f₂ : Nat) (s : List Char), s.length ≤ f₁ → s.length ≤ f₂ →
      frameLinesAux f₁ s = frameLinesAux f₂ s := by
  intro f₁
  induction f₁ with
  | zero =>
    intro f₂ s h₁ h₂
    have hs : s = [] := List.length_eq_zero.mp (Nat.le_zero.mp h₁)
    subst hs
    cases f₂ <;> rfl
  | succ n ih =>
    intro f₂ s h₁ h₂
    cases f₂ with
    | zero =>
      have hs : s = [] := List.length_eq_zero.mp (Nat.le_zero.mp h₂)
      subst hs
      rfl
    | succ m =>
      cases hb : breakAtNl s with
      | none => simp only [frameLinesAux, hb]
      | some p =>
        obtain ⟨l, r⟩ := p
        have hr : r.length < s.length := by
          have := breakAtNl_some_eq hb
          subst this
          simp
          omega
        simp only [frameLinesAux, hb]
        rw [ih m r (by omega) (by omega)]

theorem frameLines_eq_none {s : List Char} (h : breakAtNl s = none) :
    frameLines s = ([], s) := by
  show frameLinesAux s.length s = _
  rw [frameLinesAux_congr s.length (s.length + 1) s (le_refl _) (by omega)]
  simp only [frameLinesAux, h]

theorem frameLines_eq_some {s l r : List Char} (h : breakAtNl s = some (l, r)) :
    frameLines s = (l :: (frameLines r).1, (frameLines r).2) := by
  have hr : r.length < s.length := by
    have := breakAtNl_some_eq h
    subst this
    simp
    omega
  show frameLinesAux s.length s = _
  rw [frameLinesAux_congr s.length (s.length + 1) s (le_refl _) (by omega)]
  simp only [frameLinesAux, h]
  rw [frameLinesAux_congr s.length r.length r (by omega) (le_refl _)]
  rfl

theorem frameLines_rest_no_nl :
    ∀ (n : Nat) (s : List Char), s.length ≤ n →
      breakAtNl (frameLines s).2 = none := by
  intro n
  induction n with
  | zero =>
    intro s h
    have hs : s = [] := List.length_eq_zero.mp (Nat.le_zero.mp h)
    subst hs
    rfl
  | succ n ih =>
    intro s h
    cases hb : breakAtNl s with
    | none => rw [frameLines_eq_none hb]; exact hb
    | some p =>
      obtain ⟨l, r⟩ := p
      rw [frameLines_eq_some hb]
      have hr : r.length < s.length := by
        have := breakAtNl_some_eq hb
        subst this
        simp
        omega
      exact ih r (by omega)

theorem frameLines_append_aux :
    ∀ (n : Nat) (a b : List Char), a.length ≤ n →
      frameLines (a ++ b) =
        ((frameLines a).1 ++ (frameLines ((frameLines a).2 ++ b)).1,
         (frameLines ((frameLines a).2 ++ b)).2) := by
  intro n
  induction n with
  | zero =>
    intro a b ha
    have hs : a = [] := List.length_eq_zero.mp (Nat.le_zero.mp ha)
    subst hs
    have h0 : frameLines ([] : List Char) = ([], ([] : List Char)) :=
      frameLines_eq_none rfl
    rw [h0]
    simp
  | succ n ih =>
    intro a b ha
    cases h : breakAtNl a with
    | none =>
      rw [frameLines_eq_none h]
      simp
    | some p =>
      obtain ⟨l, r⟩ := p
      have hr : r.length ≤ n := by
        have := breakAtNl_some_eq h
        subst this
        simp at ha
        omega
      rw [frameLines_eq_some h, frameLines_eq_some (breakAtNl_append_some h b),
        ih r b hr]
      simp

/-- The two-call form of `frameLines_append_aux`. -/
theorem frameLines_append (a b : List Char) :
    frameLines (a ++ b) =
      ((frameLines a).1 ++ (frameLines ((frameLines a).2 ++ b)).1,
       (frameLines ((frameLines a).2 ++ b)).2) :=
  frameLines_append_aux a.length a b (le_refl _)

theorem foldl_feedChunk (chunks : List (List Char)) :
    ∀ (ls : List (List Char)) (acc : List Char), breakAtNl acc = none →
      chunks.foldl feedChunk (ls, acc) =
        (ls ++ (frameLines (acc ++ chunks.flatten)).1,
         (frameLines (acc ++ chunks.flatten)).2) := by
  induction chunks with
  | nil =>
    intro ls acc h
    simp [frameLines_eq_none h]
  | cons ch rest ih =>
    intro ls acc h
    simp only [List.foldl_cons, feedChunk]
    rw [ih _ _ (frameLines_rest_no_nl (acc ++ ch).length _ (le_refl _))]
    rw [List.flatten_cons, ← List.append_assoc, frameLines_append (acc ++ ch)]
    simp

/-- C7: feeding any chunk decomposition of a byte sequence to the Line
Framer one chunk at a time (append to the accumulator, extract every
complete line, retain the trailing partial line) produces exactly the
lines — same lines, same order — and the same leftover as framing the
whole concatenation at once. -/
theorem c7_chunk_boundary_independence (chunks : List (List Char)) :
    chunks.foldl feedChunk ([], []) = frameLines chunks.flatten := by
  rw [foldl_feedChunk chunks [] [] rfl]
  simp

/-! ## The readiness pass and deferred removal (C8) -/

theorem getD_set_ne (l : List Client) (i j : Nat) (x : Client) (h : i ≠ j) :
    (l.set i x).getD j default = l.getD j default := by
  rw [List.getD_eq_getElem?_getD, List.getD_eq_getElem?_getD,
    List.getElem?_set_ne h]

theorem getD_set_self (l : List Client) (i : Nat) (x : Client)
    (h : i < l.length) : (l.set i x).getD i default = x := by
  rw [List.getD_eq_getElem?_getD, List.getElem?_set_self h]
  rfl

theorem keepNotIn_nil_idx : ∀ (n : Nat) (l : List Client),
    keepNotIn [] n l = l := by
  intro n l
  induction l generalizing n with
  | nil => rfl
  | cons x xs ih => simp [keepNotIn, ih]

theorem keepNotIn_congr {D D' : List Nat} (h : ∀ j, j ∈ D ↔ j ∈ D') :
    ∀ (n : Nat) (l : List Client), keepNotIn D n l = keepNotIn D' n l := by
  intro n l
  induction l generalizing n with
  | nil => rfl
  | cons x xs ih =>
    by_cases hn : n ∈ D
    · have hn' : n ∈ D' := (h n).mp hn
      simp only [keepNotIn]
      rw [if_pos hn, if_pos hn', ih]
    · have hn' : n ∉ D' := fun hx => hn ((h n).mpr hx)
      simp only [keepNotIn]
      rw [if_neg hn, if_neg hn', ih]

theorem keepNotIn_append (D : List Nat) :
    ∀ (n : Nat) (a b : List Client),
      keepNotIn D n (a ++ b) = keepNotIn D n a ++ keepNotIn D (n + a.length) b := by
  intro n a
  induction a generalizing n with
  | nil => intro b; simp [keepNotIn]
  | cons x xs ih =>
    intro b
    simp only [List.cons_append, List.append_eq, keepNotIn, ih (n + 1), List.length_cons]
    have he : n + 1 + xs.length = n + (xs.length + 1) := by omega
    rw [he]
    by_cases hn : n ∈ D
    · rw [if_pos hn, if_pos hn]
    · rw [if_neg hn, if_neg hn]
      rfl

theorem keepNotIn_all_lt {D : List Nat} :
    ∀ {n : Nat} (l : List Client), (∀ d ∈ D, d < n) → keepNotIn D n l = l := by
  intro n l
  induction l generalizing n with
  | nil => intro _; rfl
  | cons x xs ih =>
    intro h
    have hn : n ∉ D := fun hx => absurd (h n hx) (by omega)
    simp only [keepNotIn]
    rw [if_neg hn, ih fun d hd => by have := h d hd; omega]

theorem keepNotIn_cons_ge {m : Nat} {D : List Nat} :
    ∀ {n : Nat} (l : List Client), n + l.length ≤ m →
      keepNotIn (m :: D) n l = keepNotIn D n l := by
  intro n l
  induction l generalizing n with
  | nil => intro _; rfl
  | cons x xs ih =>
    intro h
    simp only [List.length_cons] at h
    have hx : n + 1 + xs.length ≤ m := by omega
    by_cases hn : n ∈ D
    · have hn' : n ∈ m :: D := List.mem_cons_of_mem _ hn
      simp only [keepNotIn]
      rw [if_pos hn, if_pos hn', ih hx]
    · have hn' : n ∉ m :: D := by
        intro hc
        rcases List.mem_cons.mp hc with rfl | hc'
        · omega
        · exact hn hc'
      simp only [keepNotIn]
      rw [if_neg hn, if_neg hn', ih hx]

theorem insertDesc_big {x : Nat} :
    ∀ {ys : List Nat}, (∀ y ∈ ys, x < y) → insertDesc x ys = ys ++ [x] := by
  intro ys
  induction ys with
  | nil => intro _; rfl
  | cons y ys ih =>
    intro h
    have hy : x < y := h y (List.mem_cons_self y ys)
    simp only [insertDesc, if_neg (by omega : ¬(y ≤ x))]
    rw [ih fun z hz => h z (List.mem_cons_of_mem y hz)]
    rfl

theorem sortDescNat_asc {l : List Nat} (h : l.Pairwise (· < ·)) :
    sortDescNat l = l.reverse := by
  induction l with
  | nil => rfl
  | cons x xs ih =>
    obtain ⟨hx, hxs⟩ := List.pairwise_cons.mp h
    show insertDesc x (sortDescNat xs) = (x :: xs).reverse
    rw [ih hxs, insertDesc_big fun y hy => hx y (List.mem_reverse.mp hy)]
    simp

theorem foldl_erase_desc :
    ∀ (D : List Nat) (cs : List Client),
      D.Pairwise (· > ·) → (∀ j ∈ D, j < cs.length) →
      D.foldl (fun cs idx => if idx < cs.length then cs.eraseIdx idx else cs) cs =
        keepNotIn D 0 cs := by
  intro D
  induction D with
  | nil => intro cs _ _; exact (keepNotIn_nil_idx 0 cs).symm
  | cons m D' ih =>
    intro cs hp hb
    have hm : m < cs.length := hb m (List.mem_cons_self m D')
    obtain ⟨hgt, hp'⟩ := List.pairwise_cons.mp hp
    simp only [List.foldl_cons, if_pos hm]
    rw [ih (cs.eraseIdx m) hp' ?bound]
    case bound =>
      intro j hj
      have hjm : j < m := hgt j hj
      rw [List.length_eraseIdx, if_pos hm]
      omega
    -- it remains to show keepNotIn D' 0 (cs.eraseIdx m) = keepNotIn (m :: D') 0 cs
    have hsplit : cs = cs.take m ++ cs.getD m default :: cs.drop (m + 1) := by
      conv_lhs => rw [← List.take_append_drop m cs]
      rw [List.drop_eq_getElem_cons hm, List.getD_eq_getElem?_getD,
        List.getElem?_eq_getElem hm]
      rfl
    have htake : (cs.take m).length = m := by
      rw [List.length_take]
      omega
    have herase : cs.eraseIdx m = cs.take m ++ cs.drop (m + 1) :=
      List.eraseIdx_eq_take_drop_succ cs m
    have hD'lt : ∀ d ∈ D', d < m := fun d hd => hgt d hd
    rw [herase, keepNotIn_append D' 0 (cs.take m) (cs.drop (m + 1))]
    conv_rhs => rw [hsplit]
    rw [keepNotIn_append (m :: D') 0 (cs.take m) (_ :: _)]
    rw [keepNotIn_cons_ge (cs.take m) (by omega)]
    simp only [htake, Nat.zero_add]
    congr 1
    -- heads: keepNotIn D' m (drop (m+1)) = keepNotIn (m :: D') m (x :: drop (m+1))
    simp only [keepNotIn]
    rw [if_pos (List.mem_cons_self m D')]
    rw [keepNotIn_all_lt (cs.drop (m + 1)) (fun d hd => hD'lt d hd),
      keepNotIn_all_lt (cs.drop (m + 1)) ?allm]
    case allm =>
      intro d hd
      rcases List.mem_cons.mp hd with rfl | hd'
      · omega
      · have := hD'lt d hd'
        omega

/-- Invariants of the client-iteration loop, proved by induction on the
remaining fuel: the pass preserves the vector's length and the slots
before the cursor, the collected `to_remove` indices are strictly
ascending, an index is collected exactly when its connection was live and
its read reported end-of-stream or an error, and every collected slot has
been closed (`fd = -1`) by the end of the pass. -/
theorem passAux_spec (fail : List Int) (outcomes : Nat → ReadOutcome) :
    ∀ (fuel i : Nat) (cs : List Client), cs.length ≤ i + fuel →
      ((passAux fail outcomes fuel i cs).1.length = cs.length) ∧
      (∀ j, j < i →
        (passAux fail outcomes fuel i cs).1.getD j default = cs.getD j default) ∧
      ((passAux fail outcomes fuel i cs).2.1.Pairwise (· < ·)) ∧
      (∀ j, j ∈ (passAux fail outcomes fuel i cs).2.1 ↔
        (i ≤ j ∧ j < cs.length ∧ 0 ≤ (cs.getD j default).fd ∧
         deadOutcome (outcomes j) = true)) ∧
      (∀ j, j ∈ (passAux fail outcomes fuel i cs).2.1 →
        ((passAux fail outcomes fuel i cs).1.getD j default).fd = -1) := by
  intro fuel
  induction fuel with
  | zero =>
    intro i cs hle
    refine ⟨rfl, fun j _ => rfl, List.Pairwise.nil, fun j => ?_,
      fun j hj => absurd hj (List.not_mem_nil j)⟩
    constructor
    · intro h
      exact absurd h (List.not_mem_nil j)
    · rintro ⟨h1, h2, _⟩
      omega
  | succ n ih =>
    intro i cs hle
    by_cases hi : i < cs.length
    · by_cases hfd : (cs.getD i default).fd < 0
      · -- slot already closed: skipped
        have hstep : passAux fail outcomes (n + 1) i cs =
            passAux fail outcomes n (i + 1) cs := by
          simp only [passAux]
          rw [if_pos hi, if_pos hfd]
        obtain ⟨L, S, P, M, F⟩ := ih (i + 1) cs (by omega)
        rw [hstep]
        refine ⟨L, fun j hj => S j (by omega), P, fun j => ?_, F⟩
        rw [M j]
        constructor
        · rintro ⟨h1, h2, h3, h4⟩
          exact ⟨by omega, h2, h3, h4⟩
        · rintro ⟨h1, h2, h3, h4⟩
          refine ⟨?_, h2, h3, h4⟩
          rcases Nat.lt_or_ge i j with h | h
          · omega
          · have hji : j = i := by omega
            subst hji
            omega
      · cases ho : outcomes i with
        | notReady =>
          have hstep : passAux fail outcomes (n + 1) i cs =
              passAux fail outcomes n (i + 1) cs := by
            simp only [passAux, ho]
            rw [if_pos hi, if_neg hfd]
          obtain ⟨L, S, P, M, F⟩ := ih (i + 1) cs (by omega)
          rw [hstep]
          refine ⟨L, fun j hj => S j (by omega), P, fun j => ?_, F⟩
          rw [M j]
          constructor
          · rintro ⟨h1, h2, h3, h4⟩
            exact ⟨by omega, h2, h3, h4⟩
          · rintro ⟨h1, h2, h3, h4⟩
            refine ⟨?_, h2, h3, h4⟩
            rcases Nat.lt_or_ge i j with h | h
            · omega
            · have hji : j = i := by omega
              subst hji
              rw [ho] at h4
              exact absurd h4 (by decide)
        | eof =>
          have hstep : passAux fail outcomes (n + 1) i cs =
              ((passAux fail outcomes n (i + 1)
                  (cs.set i (markClosed (cs.getD i default)))).1,
               i :: (passAux fail outcomes n (i + 1)
                  (cs.set i (markClosed (cs.getD i default)))).2.1,
               (passAux fail outcomes n (i + 1)
                  (cs.set i (markClosed (cs.getD i default)))).2.2) := by
            simp only [passAux, ho]
            rw [if_pos hi, if_neg hfd]
          obtain ⟨L, S, P, M, F⟩ := ih (i + 1)
            (cs.set i (markClosed (cs.getD i default)))
            (by rw [List.length_set]; omega)
          rw [hstep]
          refine ⟨?_, ?_, ?_, ?_, ?_⟩
          · rw [L, List.length_set]
          · intro j hj
            rw [S j (by omega), getD_set_ne cs i j _ (by omega)]
          · exact List.pairwise_cons.mpr
              ⟨fun j hj => by have := (M j).mp hj; omega, P⟩
          · intro j
            rw [List.mem_cons, M j]
            constructor
            · rintro (rfl | ⟨h1, h2, h3, h4⟩)
              · exact ⟨le_refl j, hi, by omega, by rw [ho]; rfl⟩
              · rw [List.length_set] at h2
                rw [getD_set_ne cs i j _ (by omega)] at h3
                exact ⟨by omega, h2, h3, h4⟩
            · rintro ⟨h1, h2, h3, h4⟩
              by_cases hji : j = i
              · exact Or.inl hji
              · refine Or.inr ?_
                rw [List.length_set, getD_set_ne cs i j _ (Ne.symm ?ne)]
                case ne => exact hji
                exact ⟨by omega, h2, h3, h4⟩
          · intro j hj
            rcases List.mem_cons.mp hj with rfl | hj'
            · rw [S j (by omega), getD_set_self cs j _ hi]
              rfl
            · exact F j hj'
        | err =>
          have hstep : passAux fail outcomes (n + 1) i cs =
              ((passAux fail outcomes n (i + 1)
                  (cs.set i (markClosed (cs.getD i default)))).1,
               i :: (passAux fail outcomes n (i + 1)
                  (cs.set i (markClosed (cs.getD i default)))).2.1,
               (passAux fail outcomes n (i + 1)
                  (cs.set i (markClosed (cs.getD i default)))).2.2) := by
            simp only [passAux, ho]
            rw [if_pos hi, if_neg hfd]
          obtain ⟨L, S, P, M, F⟩ := ih (i + 1)
            (cs.set i (markClosed (cs.getD i default)))
            (by rw [List.length_set]; omega)
          rw [hstep]
          refine ⟨?_, ?_, ?_, ?_, ?_⟩
          · rw [L, List.length_set]
          · intro j hj
            rw [S j (by omega), getD_set_ne cs i j _ (by omega)]
          · exact List.pairwise_cons.mpr
              ⟨fun j hj => by have := (M j).mp hj; omega, P⟩
          · intro j
            rw [List.mem_cons, M j]
            constructor
            · rintro (rfl | ⟨h1, h2, h3, h4⟩)
              · exact ⟨le_refl j, hi, by omega, by rw [ho]; rfl⟩
              · rw [List.length_set] at h2
                rw [getD_set_ne cs i j _ (by omega)] at h3
                exact ⟨by omega, h2, h3, h4⟩
            · rintro ⟨h1, h2, h3, h4⟩
              by_cases hji : j = i
              · exact Or.inl hji
              · refine Or.inr ?_
                rw [List.length_set, getD_set_ne cs i j _ (Ne.symm ?ne)]
                case ne => exact hji
                exact ⟨by omega, h2, h3, h4⟩
          · intro j hj
            rcases List.mem_cons.mp hj with rfl | hj'
            · rw [S j (by omega), getD_set_self cs j _ hi]
              rfl
            · exact F j hj'
        | data b =>
          have hstep : passAux fail outcomes (n + 1) i cs =
              ((passAux fail outcomes n (i + 1)
                  (cs.set i (process_client_data fail
                    { cs.getD i default with
                        inbuf := (cs.getD i default).inbuf ++ b }
                    (cs.set i { cs.getD i default with
                        inbuf := (cs.getD i default).inbuf ++ b })).1)).1,
               (passAux fail outcomes n (i + 1)
                  (cs.set i (process_client_data fail
                    { cs.getD i default with
                        inbuf := (cs.getD i default).inbuf ++ b }
                    (cs.set i { cs.getD i default with
                        inbuf := (cs.getD i default).inbuf ++ b })).1)).2.1,
               (process_client_data fail
                    { cs.getD i default with
                        inbuf := (cs.getD i default).inbuf ++ b }
                    (cs.set i { cs.getD i default with
                        inbuf := (cs.getD i default).inbuf ++ b })).2.1 ++
                 (passAux fail outcomes n (i + 1)
                    (cs.set i (process_client_data fail
                      { cs.getD i default with
                          inbuf := (cs.getD i default).inbuf ++ b }
                      (cs.set i { cs.getD i default with
                          inbuf := (cs.getD i default).inbuf ++ b })).1)).2.2.1,
               (process_client_data fail
                    { cs.getD i default with
                        inbuf := (cs.getD i default).inbuf ++ b }
                    (cs.set i { cs.getD i default with
                        inbuf := (cs.getD i default).inbuf ++ b })).2.2 ++
                 (passAux fail outcomes n (i + 1)
                    (cs.set i (process_client_data fail
                      { cs.getD i default with
                          inbuf := (cs.getD i default).inbuf ++ b }
                      (cs.set i { cs.getD i default with
                          inbuf := (cs.getD i default).inbuf ++ b })).1)).2.2.2) := by
            simp only [passAux, ho]
            rw [if_pos hi, if_neg hfd]
          obtain ⟨L, S, P, M, F⟩ := ih (i + 1)
            (cs.set i (process_client_data fail
              { cs.getD i default with
                  inbuf := (cs.getD i default).inbuf ++ b }
              (cs.set i { cs.getD i default with
                  inbuf := (cs.getD i default).inbuf ++ b })).1)
            (by rw [List.length_set]; omega)
          rw [hstep]
          refine ⟨?_, ?_, P, ?_, F⟩
          · rw [L, List.length_set]
          · intro j hj
            rw [S j (by omega), getD_set_ne cs i j _ (by omega)]
          · intro j
            rw [M j]
            constructor
            · rintro ⟨h1, h2, h3, h4⟩
              rw [List.length_set] at h2
              rw [getD_set_ne cs i j _ (by omega)] at h3
              exact ⟨by omega, h2, h3, h4⟩
            · rintro ⟨h1, h2, h3, h4⟩
              by_cases hji : j = i
              · subst hji
                rw [ho] at h4
                exact absurd h4 (by simp [deadOutcome])
              · rw [List.length_set, getD_set_ne cs i j _ (Ne.symm ?ne2)]
                case ne2 => exact hji
                exact ⟨by omega, h2, h3, h4⟩
    · have hstep : passAux fail outcomes (n + 1) i cs = (cs, [], [], []) := by
        simp only [passAux]
        rw [if_neg hi]
      rw [hstep]
      refine ⟨rfl, fun j _ => rfl, List.Pairwise.nil, fun j => ?_,
        fun j hj => absurd hj (List.not_mem_nil j)⟩
      constructor
      · intro h
        exact absurd h (List.not_mem_nil j)
      · rintro ⟨h1, h2, _⟩
        omega

/-- C8: within one readiness pass, a connection whose read reports
end-of-stream or an error is only closed and marked (its index collected
into `to_remove`); the membership of the connection vector is unchanged
for the whole pass (same length, no erasure).  After the pass the cleanup
step removes exactly the marked entries — every marked connection, by
then closed (`fd = -1`), is erased, and every unmarked connection remains
in the vector, in order, with its record untouched by the cleanup
(`keepNotIn` keeps precisely the unmarked positions as they are). -/
theorem c8_deferred_removal (fail : List Int) (outcomes : Nat → ReadOutcome)
    (clients : List Client) :
    (readiness_pass fail outcomes clients).1.length = clients.length ∧
    (∀ j, j ∈ (readiness_pass fail outcomes clients).2.1 ↔
      (j < clients.length ∧ 0 ≤ (clients.getD j default).fd ∧
       deadOutcome (outcomes j) = true)) ∧
    (∀ j ∈ (readiness_pass fail outcomes clients).2.1,
      ((readiness_pass fail outcomes clients).1.getD j default).fd = -1) ∧
    cleanup (readiness_pass fail outcomes clients).1
        (readiness_pass fail outcomes clients).2.1 =
      keepNotIn (readiness_pass fail outcomes clients).2.1 0
        (readiness_pass fail outcomes clients).1 := by
  unfold readiness_pass
  obtain ⟨L, S, P, M, F⟩ :=
    passAux_spec fail outcomes clients.length 0 clients (by omega)
  refine ⟨L, fun j => ?_, F, ?_⟩
  · rw [M j]
    constructor
    · rintro ⟨_, h2, h3, h4⟩
      exact ⟨h2, h3, h4⟩
    · rintro ⟨h2, h3, h4⟩
      exact ⟨Nat.zero_le j, h2, h3, h4⟩
  · unfold cleanup
    rw [sortDescNat_asc P]
    have hrev : ((passAux fail outcomes clients.length 0 clients).2.1.reverse).Pairwise
        (· > ·) := List.pairwise_reverse.mpr P
    rw [foldl_erase_desc _ _ hrev ?bounds]
    case bounds =>
      intro j hj
      have hm := (M j).mp (List.mem_reverse.mp hj)
      rw [L]
      exact hm.2.1
    exact keepNotIn_congr (fun j => List.mem_reverse) 0 _

end NpChat
